import Mathlib

/-!
Verification of the CKEditor 5 view-layer sources:

* `packages/ckeditor5-engine/src/view/document.js`
  (`Document._callPostFixers`, `Document.registerPostFixer`, `Document.getRoot`)
* `packages/ckeditor5-engine/src/view/emptyelement.ts`
  (`EmptyElement._insertChild`, the constructor, `EmptyElement.prototype.is`)

The JavaScript is shallowly embedded: a post-fixer callback is a value of an
abstract type `α` whose behaviour is given by an interpretation
`interp : α → S → Bool × S` (the callback receives the writer, may mutate the
document state `S`, and returns the "changed" boolean, with falsy return
values modelled as `false`).  The possibly non-terminating `do … while` loop
of `_callPostFixers` is embedded with explicit fuel, returning `none` when the
fuel runs out before the fixed point is reached.
-/

namespace CKEditorView

variable {α : Type} {S : Type}

/-- One pass of the loop body of `Document._callPostFixers`
(`document.js`, lines 192-199): run the registered callbacks in registration
order, threading the writer state; stop ("break") as soon as a callback
returns `true`.  The returned boolean is the value of `wasFixed` when the
`for … of` loop is left. -/
def runPass (interp : α → S → Bool × S) : List α → S → Bool × S
  | [], s => (false, s)
  | f :: rest, s =>
    match interp f s with
    | (true, s') => (true, s')
    | (false, s') => runPass interp rest s'

/-- Instrumented variant of `runPass` that additionally records, in order,
which callback was invoked and what it returned.  The last two components
agree with `runPass` (`runPassTrace_snd`). -/
def runPassTrace (interp : α → S → Bool × S) : List α → S → List (α × Bool) × Bool × S
  | [], s => ([], false, s)
  | f :: rest, s =>
    match interp f s with
    | (true, s') => ([(f, true)], true, s')
    | (false, s') =>
      match runPassTrace interp rest s' with
      | (t, changed, s'') => ((f, false) :: t, changed, s'')

/-- `Document._callPostFixers` (`document.js`, lines 189-201): the
`do … while ( wasFixed )` loop around `runPass`, with explicit fuel counting
the number of passes still allowed.  `none` means the fuel was exhausted
before a pass completed without any callback reporting a change. -/
def callPostFixers (interp : α → S → Bool × S) : Nat → List α → S → Option S
  | 0, _, _ => none
  | fuel + 1, pfs, s =>
    match runPass interp pfs s with
    | (true, s') => callPostFixers interp fuel pfs s'
    | (false, s') => some s'

/-- Instrumented variant of `callPostFixers` recording the trace of every
pass.  Erasing the traces recovers `callPostFixers`
(`callPostFixersTrace_erase`). -/
def callPostFixersTrace (interp : α → S → Bool × S) :
    Nat → List α → S → Option (List (List (α × Bool)) × S)
  | 0, _, _ => none
  | fuel + 1, pfs, s =>
    match runPassTrace interp pfs s with
    | (t, true, s') =>
      match callPostFixersTrace interp fuel pfs s' with
      | none => none
      | some (ps, s'') => some (t :: ps, s'')
    | (t, false, s') => some ([t], s')

/-- `Document.registerPostFixer` (`document.js`, lines 171-173):
`this._postFixers.add( postFixer )` on a JavaScript `Set`, which keeps
insertion order and ignores an element that is already present. -/
def registerPostFixer [DecidableEq α] (pfs : List α) (f : α) : List α :=
  if f ∈ pfs then pfs else pfs ++ [f]

theorem runPass_cons_true {interp : α → S → Bool × S} {f : α} {s s' : S}
    (hi : interp f s = (true, s')) (rest : List α) :
    runPass interp (f :: rest) s = (true, s') := by
  simp [runPass, hi]

theorem runPass_cons_false {interp : α → S → Bool × S} {f : α} {s s' : S}
    (hi : interp f s = (false, s')) (rest : List α) :
    runPass interp (f :: rest) s = runPass interp rest s' := by
  simp [runPass, hi]

theorem runPassTrace_cons_true {interp : α → S → Bool × S} {f : α} {s s' : S}
    (hi : interp f s = (true, s')) (rest : List α) :
    runPassTrace interp (f :: rest) s = ([(f, true)], true, s') := by
  simp [runPassTrace, hi]

theorem runPassTrace_cons_false {interp : α → S → Bool × S} {f : α} {s s' : S}
    (hi : interp f s = (false, s')) (rest : List α) :
    runPassTrace interp (f :: rest) s =
      ((f, false) :: (runPassTrace interp rest s').1, (runPassTrace interp rest s').2) := by
  rcases ht : runPassTrace interp rest s' with ⟨t, c, s''⟩
  simp [runPassTrace, hi, ht]

theorem runPassTrace_snd (interp : α → S → Bool × S) (pfs : List α) (s : S) :
    (runPassTrace interp pfs s).2 = runPass interp pfs s := by
  induction pfs generalizing s with
  | nil => rfl
  | cons f rest ih =>
    rcases hi : interp f s with ⟨changed, s'⟩
    cases changed
    · rw [runPassTrace_cons_false hi, runPass_cons_false hi]
      exact ih s'
    · rw [runPassTrace_cons_true hi, runPass_cons_true hi]

theorem runPassTrace_calls_prefix (interp : α → S → Bool × S) (pfs : List α) (s : S) :
    (runPassTrace interp pfs s).1.map Prod.fst <+: pfs := by
  induction pfs generalizing s with
  | nil => simp [runPassTrace]
  | cons f rest ih =>
    rcases hi : interp f s with ⟨changed, s'⟩
    cases changed
    · rw [runPassTrace_cons_false hi]
      rcases ih s' with ⟨w, hw⟩
      exact ⟨w, by simp [hw]⟩
    · rw [runPassTrace_cons_true hi]
      exact ⟨rest, by simp⟩

theorem runPassTrace_changed_last (interp : α → S → Bool × S) (pfs : List α) (s : S)
    (h : (runPassTrace interp pfs s).2.1 = true) :
    ∃ q g, (runPassTrace interp pfs s).1 = q ++ [(g, true)] ∧ ∀ x ∈ q, x.2 = false := by
  induction pfs generalizing s with
  | nil => simp [runPassTrace] at h
  | cons f rest ih =>
    rcases hi : interp f s with ⟨changed, s'⟩
    cases changed
    · rw [runPassTrace_cons_false hi] at h ⊢
      rcases ih s' h with ⟨q, g, hqg, hall⟩
      refine ⟨(f, false) :: q, g, by simp [hqg], ?_⟩
      intro x hx
      rcases List.mem_cons.mp hx with rfl | hx
      · rfl
      · exact hall x hx
    · rw [runPassTrace_cons_true hi]
      exact ⟨[], f, rfl, by simp⟩

theorem runPassTrace_unchanged (interp : α → S → Bool × S) (pfs : List α) (s : S)
    (h : (runPassTrace interp pfs s).2.1 = false) :
    (runPassTrace interp pfs s).1 = pfs.map (fun f => (f, false)) := by
  induction pfs generalizing s with
  | nil => rfl
  | cons f rest ih =>
    rcases hi : interp f s with ⟨changed, s'⟩
    cases changed
    · rw [runPassTrace_cons_false hi] at h ⊢
      simp only [List.map]
      rw [ih s' h]
    · rw [runPassTrace_cons_true hi] at h
      simp at h

theorem callPostFixers_succ_true {interp : α → S → Bool × S} {pfs : List α} {s s' : S}
    (h : runPass interp pfs s = (true, s')) (fuel : Nat) :
    callPostFixers interp (fuel + 1) pfs s = callPostFixers interp fuel pfs s' := by
  simp [callPostFixers, h]

theorem callPostFixers_succ_false {interp : α → S → Bool × S} {pfs : List α} {s s' : S}
    (h : runPass interp pfs s = (false, s')) (fuel : Nat) :
    callPostFixers interp (fuel + 1) pfs s = some s' := by
  simp [callPostFixers, h]

theorem callPostFixersTrace_succ_true {interp : α → S → Bool × S} {pfs : List α}
    {t : List (α × Bool)} {s s' : S}
    (h : runPassTrace interp pfs s = (t, true, s')) (fuel : Nat) :
    callPostFixersTrace interp (fuel + 1) pfs s =
      match callPostFixersTrace interp fuel pfs s' with
      | none => none
      | some (ps, s'') => some (t :: ps, s'') := by
  simp [callPostFixersTrace, h]

theorem callPostFixersTrace_succ_false {interp : α → S → Bool × S} {pfs : List α}
    {t : List (α × Bool)} {s s' : S}
    (h : runPassTrace interp pfs s = (t, false, s')) (fuel : Nat) :
    callPostFixersTrace interp (fuel + 1) pfs s = some ([t], s') := by
  simp [callPostFixersTrace, h]

/-- Erasing the recorded traces from the instrumented loop recovers the loop
as written in the source. -/
theorem callPostFixersTrace_erase (interp : α → S → Bool × S) (fuel : Nat)
    (pfs : List α) (s : S) :
    (callPostFixersTrace interp fuel pfs s).map Prod.snd = callPostFixers interp fuel pfs s := by
  induction fuel generalizing s with
  | zero => rfl
  | succ fuel ih =>
    rcases ht : runPassTrace interp pfs s with ⟨t, changed, s'⟩
    have hp : runPass interp pfs s = (changed, s') := by
      rw [← runPassTrace_snd, ht]
    cases changed
    · rw [callPostFixersTrace_succ_false ht, callPostFixers_succ_false hp]
      rfl
    · rw [callPostFixersTrace_succ_true ht, callPostFixers_succ_true hp, ← ih s']
      rcases callPostFixersTrace interp fuel pfs s' with _ | ⟨ps, s''⟩
      · rfl
      · rfl

/-- Claim C1: whenever `Document._callPostFixers` terminates, its run splits
into passes; every pass invokes callbacks from the front of the registration
list in registration order (the invoked callbacks form a prefix of the
registered list); every pass but the last consists of callbacks returning
falsy values followed by one callback returning `true`, after which the rest
of the pass is abandoned and the loop restarts from the first registered
post-fixer; the loop stops after the one pass in which every registered
callback was invoked and returned a falsy value. -/
theorem callPostFixers_pass_structure (interp : α → S → Bool × S) (pfs : List α)
    (fuel : Nat) (s : S) (passes : List (List (α × Bool))) (s' : S)
    (h : callPostFixersTrace interp fuel pfs s = some (passes, s')) :
    passes ≠ [] ∧
    (∀ p ∈ passes, p.map Prod.fst <+: pfs) ∧
    (∀ p ∈ passes.dropLast, ∃ q g, p = q ++ [(g, true)] ∧ ∀ x ∈ q, x.2 = false) ∧
    (∀ p, passes.getLast? = some p → p.map Prod.fst = pfs ∧ ∀ x ∈ p, x.2 = false) := by
  induction fuel generalizing s passes with
  | zero => simp [callPostFixersTrace] at h
  | succ fuel ih =>
    rcases ht : runPassTrace interp pfs s with ⟨t, changed, s₁⟩
    cases changed
    · rw [callPostFixersTrace_succ_false ht] at h
      have hpasses : passes = [t] ∧ s' = s₁ := by
        have := Option.some.inj h
        exact ⟨congrArg Prod.fst this |>.symm, congrArg Prod.snd this |>.symm⟩
      rcases hpasses with ⟨rfl, rfl⟩
      have hflag : (runPassTrace interp pfs s).2.1 = false := by rw [ht]
      have hfull : t = pfs.map (fun f => (f, false)) := by
        have := runPassTrace_unchanged interp pfs s hflag
        rw [ht] at this
        exact this
      refine ⟨by simp, ?_, by simp, ?_⟩
      · intro p hp
        rcases List.mem_singleton.mp hp with rfl
        rw [hfull]
        simp only [List.map_map]
        have : (Prod.fst ∘ fun f : α => (f, false)) = id := rfl
        rw [this, List.map_id]
      · intro p hp
        have hpt : p = t := by simpa using hp.symm
        subst hpt
        constructor
        · rw [hfull]
          simp only [List.map_map]
          have : (Prod.fst ∘ fun f : α => (f, false)) = id := rfl
          rw [this, List.map_id]
        · intro x hx
          rw [hfull] at hx
          rcases List.mem_map.mp hx with ⟨g, _, rfl⟩
          rfl
    · rw [callPostFixersTrace_succ_true ht] at h
      rcases hrec : callPostFixersTrace interp fuel pfs s₁ with _ | ⟨ps, s₂⟩
      · rw [hrec] at h
        simp at h
      · rw [hrec] at h
        have hps : passes = t :: ps ∧ s' = s₂ := by
          have := Option.some.inj h
          exact ⟨congrArg Prod.fst this |>.symm, congrArg Prod.snd this |>.symm⟩
        rcases hps with ⟨rfl, rfl⟩
        rcases ih s₁ ps hrec with ⟨hne, hpre, hmid, hlast⟩
        have hflag : (runPassTrace interp pfs s).2.1 = true := by rw [ht]
        have htpre : t.map Prod.fst <+: pfs := by
          have := runPassTrace_calls_prefix interp pfs s
          rw [ht] at this
          exact this
        have htdec := runPassTrace_changed_last interp pfs s hflag
        rw [ht] at htdec
        refine ⟨by simp, ?_, ?_, ?_⟩
        · intro p hp
          rcases List.mem_cons.mp hp with rfl | hp
          · exact htpre
          · exact hpre p hp
        · intro p hp
          rcases ps with _ | ⟨q, qs⟩
          · exact absurd rfl hne
          · rw [List.dropLast_cons₂] at hp
            rcases List.mem_cons.mp hp with rfl | hp
            · exact htdec
            · exact hmid p hp
        · intro p hp
          rcases ps with _ | ⟨q, qs⟩
          · exact absurd rfl hne
          · rw [List.getLast?_cons_cons] at hp
            exact hlast p hp

/-- Claim C2: the post-fixer loop returns only after a pass in which every
registered post-fixer was invoked, in registration order, and every one of
them returned a falsy value; the state produced by that all-false pass is the
state the loop returns. -/
theorem callPostFixers_final_pass (interp : α → S → Bool × S) (pfs : List α)
    (fuel : Nat) (s s' : S) (h : callPostFixers interp fuel pfs s = some s') :
    ∃ s₀, runPassTrace interp pfs s₀ = (pfs.map (fun f => (f, false)), false, s') := by
  induction fuel generalizing s with
  | zero => simp [callPostFixers] at h
  | succ fuel ih =>
    rcases hp : runPass interp pfs s with ⟨changed, s₁⟩
    cases changed
    · rw [callPostFixers_succ_false hp] at h
      rcases Option.some.inj h with rfl
      refine ⟨s, ?_⟩
      rcases ht : runPassTrace interp pfs s with ⟨t, c, s₂⟩
      have hsnd : (runPassTrace interp pfs s).2 = (false, s₁) := by
        rw [runPassTrace_snd, hp]
      rw [ht] at hsnd
      have hc : c = false := congrArg Prod.fst hsnd
      have hs₂ : s₂ = s₁ := congrArg Prod.snd hsnd
      have hflag : (runPassTrace interp pfs s).2.1 = false := by rw [ht, hc]
      have hfull : t = pfs.map (fun f => (f, false)) := by
        have := runPassTrace_unchanged interp pfs s hflag
        rw [ht] at this
        exact this
      rw [hfull, hc, hs₂]
    · rw [callPostFixers_succ_true hp] at h
      exact ih s₁ h

theorem runPass_measure_lt (interp : α → S → Bool × S) (pfs : List α) (μ : S → Nat)
    (hf : ∀ f ∈ pfs, ∀ s, (interp f s).1 = false → μ (interp f s).2 ≤ μ s)
    (ht : ∀ f ∈ pfs, ∀ s, (interp f s).1 = true → μ (interp f s).2 < μ s)
    (s s' : S) (h : runPass interp pfs s = (true, s')) : μ s' < μ s := by
  induction pfs generalizing s with
  | nil => simp [runPass] at h
  | cons f rest ih =>
    rcases hi : interp f s with ⟨changed, s₁⟩
    cases changed
    · rw [runPass_cons_false hi] at h
      have h₁ : μ s₁ ≤ μ s := by
        have := hf f (List.mem_cons_self f rest) s (by rw [hi])
        rw [hi] at this
        exact this
      have h₂ : μ s' < μ s₁ :=
        ih (fun g hg => hf g (List.mem_cons_of_mem f hg))
          (fun g hg => ht g (List.mem_cons_of_mem f hg)) s₁ h
      exact lt_of_lt_of_le h₂ h₁
    · rw [runPass_cons_true hi] at h
      rcases Prod.mk.injEq .. ▸ h with ⟨-, rfl⟩
      have := ht f (List.mem_cons_self f rest) s (by rw [hi])
      rw [hi] at this
      exact this

theorem callPostFixers_isSome_of_measure (interp : α → S → Bool × S) (pfs : List α)
    (μ : S → Nat)
    (hf : ∀ f ∈ pfs, ∀ s, (interp f s).1 = false → μ (interp f s).2 ≤ μ s)
    (ht : ∀ f ∈ pfs, ∀ s, (interp f s).1 = true → μ (interp f s).2 < μ s) :
    ∀ (fuel : Nat) (s : S), μ s < fuel → (callPostFixers interp fuel pfs s).isSome = true := by
  intro fuel
  induction fuel with
  | zero => intro s hs; omega
  | succ fuel ih =>
    intro s hs
    rcases hp : runPass interp pfs s with ⟨changed, s₁⟩
    cases changed
    · rw [callPostFixers_succ_false hp]
      rfl
    · rw [callPostFixers_succ_true hp]
      have hlt := runPass_measure_lt interp pfs μ hf ht s s₁ hp
      exact ih s₁ (by omega)

/-- Claim C3: the post-fixer loop terminates whenever each post-fixer can
report "changed" only finitely many times, expressed through a ranking
function on the writer state that every `true`-returning invocation strictly
decreases and no falsy-returning invocation increases: a pass budget of
`μ s + 1` always suffices for the loop to reach its fixed point. -/
theorem callPostFixers_terminates (interp : α → S → Bool × S) (pfs : List α)
    (μ : S → Nat)
    (hf : ∀ f ∈ pfs, ∀ s, (interp f s).1 = false → μ (interp f s).2 ≤ μ s)
    (ht : ∀ f ∈ pfs, ∀ s, (interp f s).1 = true → μ (interp f s).2 < μ s)
    (s : S) : (callPostFixers interp (μ s + 1) pfs s).isSome = true :=
  callPostFixers_isSome_of_measure interp pfs μ hf ht (μ s + 1) s (Nat.lt_succ_self _)

theorem runPass_always_changed (interp : α → S → Bool × S) (pfs : List α) (f : α)
    (hmem : f ∈ pfs) (hall : ∀ s, (interp f s).1 = true) (s : S) :
    (runPass interp pfs s).1 = true := by
  induction pfs generalizing s with
  | nil => cases hmem
  | cons g rest ih =>
    rcases hi : interp g s with ⟨changed, s₁⟩
    cases changed
    · rw [runPass_cons_false hi]
      rcases List.mem_cons.mp hmem with rfl | hmem'
      · have := hall s
        rw [hi] at this
        cases this
      · exact ih hmem' s₁
    · rw [runPass_cons_true hi]

/-- Claim C4: the loop in `Document._callPostFixers` has no iteration cap and
no other safeguard; if one registered post-fixer returns `true` on every
invocation, the loop never reaches a fixed point — no finite pass budget
makes it return. -/
theorem callPostFixers_no_iteration_cap (interp : α → S → Bool × S) (pfs : List α)
    (f : α) (hmem : f ∈ pfs) (hall : ∀ s, (interp f s).1 = true) (fuel : Nat) (s : S) :
    callPostFixers interp fuel pfs s = none := by
  induction fuel generalizing s with
  | zero => rfl
  | succ fuel ih =>
    rcases hp : runPass interp pfs s with ⟨changed, s₁⟩
    have := runPass_always_changed interp pfs f hmem hall s
    rw [hp] at this
    rcases this with rfl
    rw [callPostFixers_succ_true hp]
    exact ih s₁

/-- Claim C5: `Document.registerPostFixer` is idempotent — registering the
same callback twice leaves `_postFixers` exactly as registering it once does
(the underlying JavaScript `Set` ignores a member that is already present) —
and a callback registered on a duplicate-free registry is invoked at most
once during any single pass of `_callPostFixers`. -/
theorem registerPostFixer_idem [DecidableEq α] (pfs : List α) (f : α)
    (interp : α → S → Bool × S) (s : S) (hnd : pfs.Nodup) :
    registerPostFixer (registerPostFixer pfs f) f = registerPostFixer pfs f ∧
    ((runPassTrace interp (registerPostFixer pfs f) s).1.map Prod.fst).count f ≤ 1 := by
  have hcount : (registerPostFixer pfs f).count f ≤ 1 := by
    by_cases hmem : f ∈ pfs
    · rw [registerPostFixer, if_pos hmem]
      exact List.nodup_iff_count_le_one.mp hnd f
    · rw [registerPostFixer, if_neg hmem, List.count_append]
      rw [List.count_eq_zero_of_not_mem hmem]
      simp
  constructor
  · by_cases hmem : f ∈ pfs
    · simp [registerPostFixer, hmem]
    · simp [registerPostFixer, hmem]
  · have hpre := runPassTrace_calls_prefix interp (registerPostFixer pfs f) s
    have hsub := hpre.sublist
    exact le_trans (hsub.count_le f) hcount

/-- Claim C7: when every registered post-fixer leaves the state alone and
returns a falsy value on the state it is handed, `Document._callPostFixers`
performs exactly one pass, invoking every registered callback exactly once in
registration order, and returns with the document state it started from. -/
theorem callPostFixers_noop_single_pass (interp : α → S → Bool × S) (pfs : List α)
    (s : S) (fuel : Nat) (h : ∀ f ∈ pfs, interp f s = (false, s)) :
    callPostFixersTrace interp (fuel + 1) pfs s =
      some ([pfs.map (fun f => (f, false))], s) := by
  have hpass : runPassTrace interp pfs s = (pfs.map (fun f => (f, false)), false, s) := by
    induction pfs with
    | nil => rfl
    | cons f rest ih =>
      have hi : interp f s = (false, s) := h f (List.mem_cons_self f rest)
      rw [runPassTrace_cons_false hi,
        ih (fun g hg => h g (List.mem_cons_of_mem f hg))]
      rfl
  rw [callPostFixersTrace_succ_false hpass]

/-- One concrete family of stateful post-fixers, used to exercise the loop:
the writer state is a list of counters, callback `i` reports "changed" and
decrements its counter while `counts[i]` is positive, and reports no change
once the counter reaches zero. -/
def counterInterp (i : Nat) (counts : List Nat) : Bool × List Nat :=
  match counts[i]? with
  | some (k + 1) => (true, counts.set i k)
  | _ => (false, counts)

/-- A post-fixer that reports "changed" on every invocation, never letting
the loop reach its fixed point. -/
def alwaysChangedInterp (_i : Nat) (s : List Nat) : Bool × List Nat := (true, s)

theorem counterInterp_false (i : Nat) (counts : List Nat)
    (h : (counterInterp i counts).1 = false) : (counterInterp i counts).2 = counts := by
  unfold counterInterp at h ⊢
  rcases hg : counts[i]? with _ | k
  · rfl
  · rcases k with _ | k
    · rfl
    · rw [hg] at h
      simp at h

theorem sum_set_lt (l : List Nat) (i k : Nat) (h : l[i]? = some (k + 1)) :
    (l.set i k).sum < l.sum := by
  induction l generalizing i with
  | nil => simp at h
  | cons a rest ih =>
    cases i with
    | zero =>
      simp at h
      subst h
      simp [List.set]
    | succ j =>
      simp at h
      have := ih j h
      simp [List.set]
      omega

theorem counterInterp_true (i : Nat) (counts : List Nat)
    (h : (counterInterp i counts).1 = true) :
    (counterInterp i counts).2.sum < counts.sum := by
  unfold counterInterp at h ⊢
  rcases hg : counts[i]? with _ | k
  · rw [hg] at h
    simp at h
  · rcases k with _ | k
    · rw [hg] at h
      simp at h
    · exact sum_set_lt counts i k hg

/-- Witness for claim C1: a two-callback run — the first pass stops at the
first callback (which reports a change) and the final pass invokes both
callbacks, which report no change. -/
theorem callPostFixers_pass_structure_witness :
    ([[((0 : Nat), true)], [(0, false), (1, false)]] : List (List (Nat × Bool))) ≠ [] ∧
    (∀ p ∈ ([[((0 : Nat), true)], [(0, false), (1, false)]] : List (List (Nat × Bool))),
      p.map Prod.fst <+: [0, 1]) ∧
    (∀ p ∈ ([[((0 : Nat), true)], [(0, false), (1, false)]] :
        List (List (Nat × Bool))).dropLast,
      ∃ q g, p = q ++ [(g, true)] ∧ ∀ x ∈ q, x.2 = false) ∧
    (∀ p, ([[((0 : Nat), true)], [(0, false), (1, false)]] :
        List (List (Nat × Bool))).getLast? = some p →
      p.map Prod.fst = [0, 1] ∧ ∀ x ∈ p, x.2 = false) :=
  callPostFixers_pass_structure counterInterp [0, 1] 2 [1, 0]
    [[(0, true)], [(0, false), (1, false)]] [0, 0] rfl

/-- Witness for claim C2: the same two-callback run returns `[0, 0]`, and the
final pass indeed invoked both callbacks with both reporting no change. -/
theorem callPostFixers_final_pass_witness :
    ∃ s₀, runPassTrace counterInterp [0, 1] s₀ =
      ([0, 1].map (fun f => (f, false)), false, [0, 0]) :=
  callPostFixers_final_pass counterInterp [0, 1] 2 [1, 0] [0, 0] rfl

/-- Witness for claim C3: with counters `[1, 0]` (one pending fix), a budget
of `sum + 1 = 2` passes reaches the fixed point. -/
theorem callPostFixers_terminates_witness :
    (callPostFixers counterInterp (List.sum [1, 0] + 1) [0, 1] [1, 0]).isSome = true :=
  callPostFixers_terminates counterInterp [0, 1] List.sum
    (fun f _ s hfs => le_of_eq (congrArg List.sum (counterInterp_false f s hfs)))
    (fun f _ s hts => counterInterp_true f s hts)
    [1, 0]

/-- Witness for claim C4: with a single always-"changed" post-fixer even one
hundred passes of fuel do not make the loop return. -/
theorem callPostFixers_no_iteration_cap_witness :
    callPostFixers alwaysChangedInterp 100 [0] [5] = none :=
  callPostFixers_no_iteration_cap alwaysChangedInterp [0] 0
    (List.mem_cons_self 0 []) (fun _ => rfl) 100 [5]

/-- Witness for claim C5: registering callback `2` twice over the registry
`[0, 1]` equals registering it once, and `2` is invoked at most once in a
pass. -/
theorem registerPostFixer_idem_witness :
    registerPostFixer (registerPostFixer [0, 1] 2) 2 = registerPostFixer [0, 1] 2 ∧
    ((runPassTrace counterInterp (registerPostFixer [0, 1] 2) [0, 0, 0]).1.map
      Prod.fst).count 2 ≤ 1 :=
  registerPostFixer_idem [0, 1] 2 counterInterp [0, 0, 0] (by decide)

/-- Witness for claim C7: with both counters exhausted every callback reports
no change, so the loop makes exactly one pass invoking both callbacks and
returns the untouched state. -/
theorem callPostFixers_noop_single_pass_witness :
    callPostFixersTrace counterInterp (3 + 1) [0, 1] [0, 0] =
      some ([[0, 1].map (fun f => (f, false))], [0, 0]) :=
  callPostFixers_noop_single_pass counterInterp [0, 1] [0, 0] 3 (by decide)

/-- A view root: an element distinguished by its `rootName`, the id property
of the `roots` collection (`document.js`, line 51). -/
structure ViewRoot where
  rootName : String
deriving DecidableEq

/-- Modelled from the spec: the `roots` member is a
`Collection( { idProperty: 'rootName' } )` from `ckeditor5-utils` (not among
the sources); per the spec a document owns a mapping from root name to root,
insertion order irrelevant, so `collection.get( name )` returns the unique
member whose `rootName` equals `name`, or `null` when there is none. -/
def collectionGet (roots : List ViewRoot) (id : String) : Option ViewRoot :=
  roots.find? (fun r => r.rootName == id)

/-- `Document.getRoot` (`document.js`, lines 120-122): `name` defaults to
`'main'` when the argument is omitted (`none`). -/
def getRoot (roots : List ViewRoot) (name : Option String) : Option ViewRoot :=
  collectionGet roots (name.getD "main")

theorem collectionGet_of_mem (roots : List ViewRoot) (r : ViewRoot)
    (hu : (roots.map ViewRoot.rootName).Nodup) (hmem : r ∈ roots) :
    collectionGet roots r.rootName = some r := by
  induction roots with
  | nil => cases hmem
  | cons a rest ih =>
    rcases List.mem_cons.mp hmem with rfl | hmem'
    · simp [collectionGet, List.find?]
    · have hnea : (a.rootName == r.rootName) = false := by
        rw [List.map, List.nodup_cons] at hu
        have hin : r.rootName ∈ rest.map ViewRoot.rootName :=
          List.mem_map.mpr ⟨r, hmem', rfl⟩
        have : a.rootName ≠ r.rootName := fun he => hu.1 (he ▸ hin)
        simpa using this
      have := ih (by rw [List.map, List.nodup_cons] at hu; exact hu.2) hmem'
      simpa [collectionGet, List.find?, hnea] using this

/-- Claim C6: `Document.getRoot( name )` returns exactly the attached root
whose `rootName` equals `name`, `null` (here `none`) when no root carries
that name, and calling it with the argument omitted behaves exactly as
`getRoot( 'main' )`. -/
theorem getRoot_spec (roots : List ViewRoot) (name : String)
    (hu : (roots.map ViewRoot.rootName).Nodup) :
    (∀ r, getRoot roots (some name) = some r ↔ r ∈ roots ∧ r.rootName = name) ∧
    (getRoot roots (some name) = none ↔ ∀ r ∈ roots, r.rootName ≠ name) ∧
    getRoot roots none = getRoot roots (some "main") := by
  refine ⟨?_, ?_, rfl⟩
  · intro r
    constructor
    · intro h
      have h' : roots.find? (fun x => x.rootName == name) = some r := h
      have hmem := List.mem_of_find?_eq_some h'
      have hname :=
        List.find?_some (p := fun x => x.rootName == name) (a := r) (l := roots) h'
      exact ⟨hmem, by simpa using hname⟩
    · rintro ⟨hmem, rfl⟩
      exact collectionGet_of_mem roots r hu hmem
  · rw [getRoot, collectionGet, List.find?_eq_none]
    constructor
    · intro h r hr
      have := h r hr
      simpa using this
    · intro h r hr
      simpa using h r hr

/-- Witness for claim C6: a document with roots `main` and `side`. -/
theorem getRoot_spec_witness :
    (∀ r, getRoot [⟨"main"⟩, ⟨"side"⟩] (some "side") = some r ↔
      r ∈ [⟨"main"⟩, ⟨"side"⟩] ∧ r.rootName = "side") ∧
    (getRoot [⟨"main"⟩, ⟨"side"⟩] (some "side") = none ↔
      ∀ r ∈ ([⟨"main"⟩, ⟨"side"⟩] : List ViewRoot), r.rootName ≠ "side") ∧
    getRoot [⟨"main"⟩, ⟨"side"⟩] none = getRoot [⟨"main"⟩, ⟨"side"⟩] (some "main") :=
  getRoot_spec [⟨"main"⟩, ⟨"side"⟩] "side" (by decide)

/-- The `items` argument of `EmptyElement._insertChild`
(`emptyelement.ts`, line 66): a single `Node` instance, an iterable of items
(child nodes identified by numbers), or a nullish (falsy) value. -/
inductive InsertArg where
  | nullish
  | node (id : Nat)
  | iter (items : List Nat)
deriving DecidableEq

/-- JavaScript truthiness of the `items` argument: only a nullish value is
falsy — objects, including an empty array, are truthy. -/
def argTruthy : InsertArg → Bool
  | .nullish => false
  | _ => true

/-- The `items instanceof Node` test. -/
def argIsNode : InsertArg → Bool
  | .node _ => true
  | _ => false

/-- The `Array.from( items ).length` expression (only reached on iterables,
thanks to short-circuiting). -/
def argFromLength : InsertArg → Nat
  | .iter items => items.length
  | _ => 0

/-- `EmptyElement._insertChild` (`emptyelement.ts`, lines 66-80): throws the
`CKEditorError` `view-emptyelement-cannot-add` when
`items && ( items instanceof Node || Array.from( items ).length > 0 )`, and
returns `0` otherwise; the element's child list is never touched, so it is
returned unchanged on both paths. -/
def emptyElement_insertChild (_index : Nat) (items : InsertArg)
    (children : List Nat) : Except String Nat × List Nat :=
  if argTruthy items && (argIsNode items || argFromLength items != 0) then
    (Except.error "view-emptyelement-cannot-add", children)
  else
    (Except.ok 0, children)

/-- Claim C8: `EmptyElement._insertChild( index, items )` throws
`view-emptyelement-cannot-add` exactly when `items` is a `Node` or a
non-empty iterable; the child list is unchanged in every case, and on the
non-throwing path the method returns `0`. -/
theorem emptyElement_insertChild_spec (index : Nat) (items : InsertArg)
    (children : List Nat) :
    ((emptyElement_insertChild index items children).1 =
        Except.error "view-emptyelement-cannot-add" ↔
      (∃ n, items = InsertArg.node n) ∨ ∃ xs, items = InsertArg.iter xs ∧ xs ≠ []) ∧
    (emptyElement_insertChild index items children).2 = children ∧
    ((emptyElement_insertChild index items children).1 = Except.ok 0 ↔
      ¬((∃ n, items = InsertArg.node n) ∨ ∃ xs, items = InsertArg.iter xs ∧ xs ≠ [])) := by
  rcases items with _ | n | xs
  · simp [emptyElement_insertChild, argTruthy]
  · simp [emptyElement_insertChild, argTruthy, argIsNode]
  · rcases xs with _ | ⟨x, xs⟩
    · simp [emptyElement_insertChild, argTruthy, argIsNode, argFromLength]
    · simp [emptyElement_insertChild, argTruthy, argIsNode, argFromLength]

/-- Witness for claim C8: inserting a single `Node` into an `EmptyElement`
with one existing pseudo-state. -/
theorem emptyElement_insertChild_spec_witness :
    ((emptyElement_insertChild 0 (InsertArg.node 7) []).1 =
        Except.error "view-emptyelement-cannot-add" ↔
      (∃ n, InsertArg.node 7 = InsertArg.node n) ∨
        ∃ xs, InsertArg.node 7 = InsertArg.iter xs ∧ xs ≠ []) ∧
    (emptyElement_insertChild 0 (InsertArg.node 7) []).2 = [] ∧
    ((emptyElement_insertChild 0 (InsertArg.node 7) []).1 = Except.ok 0 ↔
      ¬((∃ n, InsertArg.node 7 = InsertArg.node n) ∨
        ∃ xs, InsertArg.node 7 = InsertArg.iter xs ∧ xs ≠ [])) :=
  emptyElement_insertChild_spec 0 (InsertArg.node 7) []

/-- Modelled from the spec: the `Element` base-class constructor (the file
`element.ts` is not among the sources) records the element name, starts from
an empty child list and hands the `children` argument to the virtually
dispatched `_insertChild`, which `EmptyElement` overrides — the override's
doc comment states that the constructor throws `view-emptyelement-cannot-add`
when a children argument is passed. The resulting element state is the pair
(name, child list). -/
def emptyElement_new (name : String) (children : InsertArg) :
    Except String (String × List Nat) :=
  match emptyElement_insertChild 0 children [] with
  | (Except.error e, _) => Except.error e
  | (Except.ok _, cs) => Except.ok (name, cs)

/-- Claim C9: an `EmptyElement` has zero children at all times — constructing
one with a non-empty children argument throws `view-emptyelement-cannot-add`,
every successful construction yields an empty child list, and `_insertChild`
(the only child-adding operation) never changes the child list. -/
theorem emptyElement_childCount_zero (name : String) (children : InsertArg) :
    ((∃ n, children = InsertArg.node n) ∨ (∃ xs, children = InsertArg.iter xs ∧ xs ≠ []) →
      emptyElement_new name children = Except.error "view-emptyelement-cannot-add") ∧
    (∀ st, emptyElement_new name children = Except.ok st → st.2 = []) ∧
    (∀ (index : Nat) (items : InsertArg) (cs : List Nat),
      (emptyElement_insertChild index items cs).2 = cs) := by
  refine ⟨?_, ?_, ?_⟩
  · rintro (⟨n, rfl⟩ | ⟨xs, rfl, hne⟩)
    · simp [emptyElement_new, emptyElement_insertChild, argTruthy, argIsNode]
    · rcases xs with _ | ⟨x, xs⟩
      · exact absurd rfl hne
      · simp [emptyElement_new, emptyElement_insertChild, argTruthy, argIsNode,
          argFromLength]
  · intro st hst
    rcases children with _ | n | xs
    · simp [emptyElement_new, emptyElement_insertChild, argTruthy] at hst
      rw [← hst]
    · simp [emptyElement_new, emptyElement_insertChild, argTruthy, argIsNode] at hst
    · rcases xs with _ | ⟨x, xs⟩
      · simp [emptyElement_new, emptyElement_insertChild, argTruthy, argIsNode,
          argFromLength] at hst
        rw [← hst]
      · simp [emptyElement_new, emptyElement_insertChild, argTruthy, argIsNode,
          argFromLength] at hst
  · intro index items cs
    unfold emptyElement_insertChild
    rcases h : argTruthy items && (argIsNode items || argFromLength items != 0)
    · rfl
    · rfl

/-- Witness for claim C9: constructing an `img` empty element with a
non-empty children list throws, and a successful construction has no
children. -/
theorem emptyElement_childCount_zero_witness :
    ((∃ n, InsertArg.iter [4] = InsertArg.node n) ∨
        (∃ xs, InsertArg.iter [4] = InsertArg.iter xs ∧ xs ≠ []) →
      emptyElement_new "img" (InsertArg.iter [4]) =
        Except.error "view-emptyelement-cannot-add") ∧
    (∀ st, emptyElement_new "img" (InsertArg.iter [4]) = Except.ok st → st.2 = []) ∧
    (∀ (index : Nat) (items : InsertArg) (cs : List Nat),
      (emptyElement_insertChild index items cs).2 = cs) :=
  emptyElement_childCount_zero "img" (InsertArg.iter [4])

/-- `EmptyElement.prototype.is` (`emptyelement.ts`, lines 109-121).
`elName` is the element's own `name` property; the optional `name` argument
is `none` when omitted.  The JavaScript guard is `if ( !name )`, so the
no-name branch is taken both when the argument is omitted and when it is the
empty string (a falsy value); the two identical branch bodies below mirror
that single source branch being reached in those two ways. -/
def emptyElement_is (elName type : String) (name : Option String) : Bool :=
  match name with
  | none =>
    type == "emptyElement" || type == "view:emptyElement" ||
    type == "element" || type == "view:element" ||
    type == "node" || type == "view:node"
  | some nm =>
    if nm == "" then
      type == "emptyElement" || type == "view:emptyElement" ||
      type == "element" || type == "view:element" ||
      type == "node" || type == "view:node"
    else
      nm == elName &&
        (type == "emptyElement" || type == "view:emptyElement" ||
         type == "element" || type == "view:element")

/-- The behaviour claim C10 asserts for an `is( type, name )` call carrying a
name: `true` exactly when the name matches and the type is one of the four
element types. -/
def claimedIsWithName (elName type nm : String) : Bool :=
  nm == elName &&
    (type == "emptyElement" || type == "view:emptyElement" ||
     type == "element" || type == "view:element")

/-- Counterexample to claim C10 as stated: calling `is( 'node', '' )` on an
`img` empty element passes a name, yet the code takes the falsy-name branch
and returns `true` for type `node`, while the claim predicts `false` for any
named call with type `node`. -/
theorem emptyElement_is_claim_counterexample :
    emptyElement_is "img" "node" (some "") = true ∧
    claimedIsWithName "img" "node" "" = false ∧
    emptyElement_is "img" "node" (some "") ≠ claimedIsWithName "img" "node" "" := by
  refine ⟨rfl, rfl, by decide⟩

/-- Claim C10 (amended): without a name, `is( type )` returns `true` exactly
for the six view types; with a NON-EMPTY name, `is( type, name )` returns
`true` exactly when the name matches the element's name and the type is one
of the four element types — in particular `is( 'node', e.name )` is `false`
although `is( 'node' )` is `true`; with the empty string as name (a falsy
value) the call behaves exactly as if no name was passed. -/
theorem emptyElement_is_spec (elName type nm : String) (hnm : nm ≠ "") :
    (emptyElement_is elName type none =
      (type == "emptyElement" || type == "view:emptyElement" ||
       type == "element" || type == "view:element" ||
       type == "node" || type == "view:node")) ∧
    emptyElement_is elName type (some nm) = claimedIsWithName elName type nm ∧
    (nm = elName → emptyElement_is elName "node" (some nm) = false ∧
      emptyElement_is elName "node" none = true) ∧
    emptyElement_is elName type (some "") = emptyElement_is elName type none := by
  have hbeq : (nm == "") = false := by simpa using hnm
  refine ⟨rfl, ?_, ?_, rfl⟩
  · rw [emptyElement_is, if_neg (by simpa using hnm)]
    rfl
  · rintro rfl
    constructor
    · rw [emptyElement_is, if_neg (by simpa using hnm)]
      simp [claimedIsWithName]
    · rfl

/-- Witness for the amended claim C10: an `img` empty element with the name
argument `'img'`. -/
theorem emptyElement_is_spec_witness :
    (emptyElement_is "img" "element" none =
      ("element" == "emptyElement" || "element" == "view:emptyElement" ||
       "element" == "element" || "element" == "view:element" ||
       "element" == "node" || "element" == "view:node")) ∧
    emptyElement_is "img" "element" (some "img") =
      claimedIsWithName "img" "element" "img" ∧
    ("img" = "img" → emptyElement_is "img" "node" (some "img") = false ∧
      emptyElement_is "img" "node" none = true) ∧
    emptyElement_is "img" "element" (some "") = emptyElement_is "img" "element" none :=
  emptyElement_is_spec "img" "element" "img" (by decide)

end CKEditorView
